import Mathlib

/-!
Shallow embedding of the LZW codec from this repository (the mature,
hash-accelerated iteration: the bit-packing compressor in lzw.c, the
binary-safe decompressor in lzwDecompression.c, and the configuration
header with INIT_DICT_SIZE = 256, CODE_BITS = 14, MAX_DICT_SIZE = 16384).

Machine integers are modelled as Nat with explicit `% 2 ^ 32` where the C
code computes in uint32.  File I/O is modelled as lists of byte values:
`lzw_compress : List Nat → Option (List Nat)` maps the input bytes to the
compressed artifact (None models a diverging hash-table probe loop), and
`lzw_decompress : List Nat → DecOut` maps an artifact to the decompressed
bytes or to the fatal-error exit the C code takes (each distinct
fprintf/exit path gets its own error tag).  Loops that are not structurally
recursive in C (the bit-writer drain loop, the hash-table sizing loop, the
probe loops, the decoder main loop) are given an explicit fuel that
provably bounds their iteration count, so that every definition is
executable; probe loops return None when the fuel runs out, which models
the one genuinely possible nontermination (probing a full table).
-/

/-- CODE_BITS from lzw.h: fixed code width in bits. -/
def CODE_BITS : Nat := 14

/-- MAX_DICT_SIZE from lzw.h: maximum number of dictionary entries. -/
def MAX_DICT_SIZE : Nat := 16384

/-- INIT_DICT_SIZE from lzw.h: number of seeded single-byte entries. -/
def INIT_DICT_SIZE : Nat := 256

/-! ### Bit writer (lzw.c: BitWriter, bw_write_code, bw_flush)

The C BitWriter holds a uint32 buffer and a bit count; bytes it emits go
to the output stream.  Here the state is the pair (buffer, bit_count) and
each operation returns the bytes it wrote. -/

structure BitWriter where
  buffer : Nat
  bit_count : Nat
deriving DecidableEq

/-- The `while (bw->bit_count >= 8)` drain loop of bw_write_code.  Each
iteration removes 8 bits, so `bit_count` itself bounds the number of
iterations; it is used as structural fuel. -/
def bw_drain_go : Nat → Nat → Nat → BitWriter × List Nat
  | 0, buffer, bc => (⟨buffer, bc⟩, [])
  | fuel + 1, buffer, bc =>
    if 8 ≤ bc then
      let p := bw_drain_go fuel (buffer / 256) (bc - 8)
      (p.1, buffer % 256 :: p.2)
    else
      (⟨buffer, bc⟩, [])

def bw_drain (buffer bc : Nat) : BitWriter × List Nat :=
  bw_drain_go bc buffer bc

/-- bw_write_code: or the masked code into the buffer at the current bit
offset (a uint32 computation), bump the bit count by CODE_BITS, then emit
complete bytes from the low end. -/
def bw_write_code (bw : BitWriter) (code : Nat) : BitWriter × List Nat :=
  bw_drain (bw.buffer ||| ((code % 2 ^ CODE_BITS) * 2 ^ bw.bit_count) % 2 ^ 32)
    (bw.bit_count + CODE_BITS)

/-- bw_flush: emit the remaining partial byte, if any bits are pending. -/
def bw_flush (bw : BitWriter) : List Nat :=
  if 0 < bw.bit_count then [bw.buffer % 256] else []

/-- Run bw_write_code over a list of codes, collecting the emitted bytes. -/
def bw_run (bw : BitWriter) : List Nat → BitWriter × List Nat
  | [] => (bw, [])
  | c :: cs =>
    let p := bw_write_code bw c
    let q := bw_run p.1 cs
    (q.1, p.2 ++ q.2)

/-- The byte stream the compressor produces for a code sequence: write
every code in order from a fresh BitWriter, then flush. -/
def pack (codes : List Nat) : List Nat :=
  let p := bw_run ⟨0, 0⟩ codes
  p.2 ++ bw_flush p.1

/-! ### Specification-level packing (from the spec's words, for comparison
with the implementation above)

The spec describes the wire format as the codes' CODE_BITS-wide values
concatenated LSB-first and zero-padded to the next byte boundary.  As a
number, that concatenation is `lsbValue codes`; `bytesOf k v` takes its
k low-order base-256 digits, least significant first. -/

/-- The number whose base-2^CODE_BITS digits (least significant first) are
the codes: the LSB-first concatenation of the codes' bit patterns. -/
def lsbValue : List Nat → Nat
  | [] => 0
  | c :: cs => c % 2 ^ CODE_BITS + 2 ^ CODE_BITS * lsbValue cs

/-- The k low-order bytes of v, least significant first. -/
def bytesOf : Nat → Nat → List Nat
  | 0, _ => []
  | k + 1, v => v % 256 :: bytesOf k (v / 256)

/-- Spec-level packing: ceil(n * CODE_BITS / 8) bytes of the LSB-first
concatenation, unused high bits of the last byte zero. -/
def lsbPack (codes : List Nat) : List Nat :=
  bytesOf ((codes.length * CODE_BITS + 7) / 8) (lsbValue codes)

/-! ### Bit reader (lzwDecompression.c: BitReader, br_read_code)

The BitReader keeps the not-yet-consumed source bytes together with the
uint32 bit buffer and bit count. -/

structure BitReader where
  input : List Nat
  buffer : Nat
  bit_count : Nat
deriving DecidableEq

/-- Result of br_read_code: a code plus the advanced reader (C returns 1),
end of stream (C returns 0), or the fatal corrupted-stream exit. -/
inductive ReadRes where
  | code (c : Nat) (br : BitReader)
  | eof
  | corrupt
deriving DecidableEq

/-- br_read_code: pull bytes until CODE_BITS bits are buffered, then
extract the low CODE_BITS bits.  At end of source: bit_count = 0 means
no more codes; a nonempty residual is the corrupted-stream exit. -/
def br_read_aux : List Nat → Nat → Nat → ReadRes
  | [], buffer, bc =>
    if bc < CODE_BITS then
      if bc = 0 then ReadRes.eof else ReadRes.corrupt
    else
      ReadRes.code (buffer % 2 ^ CODE_BITS) ⟨[], buffer / 2 ^ CODE_BITS, bc - CODE_BITS⟩
  | b :: rest, buffer, bc =>
    if bc < CODE_BITS then
      br_read_aux rest (buffer ||| ((b % 256) * 2 ^ bc) % 2 ^ 32) (bc + 8)
    else
      ReadRes.code (buffer % 2 ^ CODE_BITS)
        ⟨b :: rest, buffer / 2 ^ CODE_BITS, bc - CODE_BITS⟩

def br_read_code (br : BitReader) : ReadRes :=
  br_read_aux br.input br.buffer br.bit_count

/-! ### Encoder hash table (lzw.c: Slot, ht_init, ht_probe_start, ht_find,
ht_insert)

The open-addressed table maps (prefix, append) keys to codes; an empty
slot is marked by code = -1.  The table is a total function from slot
index to Slot (only indices below ht_cap are ever probed).  The unbounded
`for (;;)` probe loops get fuel ht_cap: the probe sequence is cyclic with
period ht_cap, so a loop that has not stopped within ht_cap steps never
stops; None models that divergence. -/

structure Slot where
  key : Nat
  code : Int
deriving DecidableEq

/-- C: key = ((uint32_t)prefix << 8) | append, computed in uint32. -/
def mk_key (pfx append : Nat) : Nat :=
  (pfx * 256) % 2 ^ 32 ||| append % 256

/-- The sizing loop of ht_init: double from 1 until ≥ capacity (power of
two).  Doubling from 1 reaches any target within `capacity` steps, so the
fuel never runs out for the capacity the compressor passes. -/
def ht_grow_go : Nat → Nat → Nat → Nat
  | 0, c, _ => c
  | fuel + 1, c, target => if c < target then ht_grow_go fuel (2 * c) target else c

/-- ht_cap after ht_init(MAX_DICT_SIZE * 2) in lzw_compress. -/
def ht_cap : Nat := ht_grow_go (MAX_DICT_SIZE * 2) 1 (MAX_DICT_SIZE * 2)

/-- The freshly initialized table: every slot has code = -1, key = 0. -/
def initTbl : Nat → Slot := fun _ => ⟨0, -1⟩

/-- C: (key * 2654435761u) & (ht_cap - 1), the multiplication in uint32. -/
def ht_probe_start (key : Nat) : Nat :=
  (key * 2654435761) % 2 ^ 32 &&& (ht_cap - 1)

/-- The ht_find probe loop from slot i with the given fuel. -/
def ht_find_go (tbl : Nat → Slot) (key : Nat) : Nat → Nat → Option Int
  | _, 0 => none
  | i, fuel + 1 =>
    if (tbl i).code = -1 then some (-1)
    else if (tbl i).key = key then some (tbl i).code
    else ht_find_go tbl key ((i + 1) &&& (ht_cap - 1)) fuel

/-- ht_find: -1 when an empty slot is reached first (not found), else the
stored code; None when the probe loop would never stop. -/
def ht_find (tbl : Nat → Slot) (key : Nat) : Option Int :=
  ht_find_go tbl key (ht_probe_start key) ht_cap

/-- The ht_insert probe loop: write into the first empty slot. -/
def ht_insert_go (tbl : Nat → Slot) (key : Nat) (code : Int) :
    Nat → Nat → Option (Nat → Slot)
  | _, 0 => none
  | i, fuel + 1 =>
    if (tbl i).code = -1 then some (Function.update tbl i ⟨key, code⟩)
    else ht_insert_go tbl key code ((i + 1) &&& (ht_cap - 1)) fuel

def ht_insert (tbl : Nat → Slot) (key : Nat) (code : Int) : Option (Nat → Slot) :=
  ht_insert_go tbl key code (ht_probe_start key) ht_cap

/-! ### Encoder (lzw.c: EncEntry, lzw_compress)

The metrics-only locals of lzw_compress (bytes_processed, codes_written,
hash_collisions, kwkwk_count, peak_dict_size, the clock calls and the
printf block) do not touch the artifact and are omitted.  The C code
interleaves bw_write_code calls with the main loop; since the BitWriter
only interacts through that call sequence, the model collects the codes
in order and feeds them to `pack`, which performs the identical sequence
of bw_write_code calls followed by the final bw_flush. -/

/-- EncEntry from lzw.c; `pfx` is the C field `prefix` (-1 for the 256
root symbols). -/
structure EncEntry where
  pfx : Int
  append : Nat
  len : Nat
deriving DecidableEq

/-- The 256 seeded single-byte entries; indices ≥ dict_size model
uninitialized array memory and are never read by the algorithm. -/
def initEncDict : Nat → EncEntry := fun i =>
  if i < INIT_DICT_SIZE then ⟨-1, i, 1⟩ else ⟨-1, 0, 0⟩

/-- The encoder state of the lzw_compress main loop. -/
structure EncState where
  dict : Nat → EncEntry
  dict_size : Nat
  tbl : Nat → Slot
  curr_code : Nat

/-- One iteration of the lzw_compress main loop on input byte k: look up
(curr_code, k); on a hit extend; on a miss emit curr_code, add the entry
when space remains, insert it into the hash index, and restart from k.
Returns the codes emitted by the iteration; None propagates a diverging
probe loop. -/
def encStep (s : EncState) (k : Nat) : Option (EncState × List Nat) :=
  match ht_find s.tbl (mk_key s.curr_code k) with
  | none => none
  | some found =>
    if found ≠ -1 then
      some ({ s with curr_code := found.toNat }, [])
    else if s.dict_size < MAX_DICT_SIZE then
      match ht_insert s.tbl (mk_key s.curr_code k) (Int.ofNat s.dict_size) with
      | none => none
      | some tbl2 =>
        some ({ dict := Function.update s.dict s.dict_size
                  ⟨Int.ofNat s.curr_code, k, (s.dict s.curr_code).len + 1⟩,
                dict_size := s.dict_size + 1,
                tbl := tbl2,
                curr_code := k }, [s.curr_code])
    else
      some ({ s with curr_code := k }, [s.curr_code])

/-- The lzw_compress main loop over the remaining input bytes (each byte
from fgetc is reduced mod 256, as the uint8_t cast does). -/
def encLoop (s : EncState) : List Nat → Option (EncState × List Nat)
  | [] => some (s, [])
  | b :: rest =>
    match encStep s (b % 256) with
    | none => none
    | some (s2, out1) =>
      match encLoop s2 rest with
      | none => none
      | some (s3, out2) => some (s3, out1 ++ out2)

/-- The 4 bytes of a host int32 as written by fwrite on a little-endian
host (the spec fixes the artifact to the host's own endianness; both
sides of the codec use the same encoding). -/
def int32LE (v : Nat) : List Nat :=
  [v % 256, v / 256 % 256, v / 65536 % 256, v / 16777216 % 256]

/-- lzw_compress as a byte transform: the int32 header, then the packed
codes; an empty input emits only the header (the flush of zero pending
bits writes nothing).  A nonempty input primes curr_code with the first
byte, runs the main loop, then emits the final pending curr_code and
flushes. -/
def lzw_compress (input : List Nat) : Option (List Nat) :=
  match input with
  | [] => some (int32LE INIT_DICT_SIZE ++ pack [])
  | b :: rest =>
    match encLoop ⟨initEncDict, INIT_DICT_SIZE, initTbl, b % 256⟩ rest with
    | none => none
    | some (s, codes) =>
      some (int32LE INIT_DICT_SIZE ++ pack (codes ++ [s.curr_code]))

/-! ### Decoder (lzwDecompression.c: lzw_decompress)

Each fatal fprintf/exit(1) path gets its own tag; `DecOut.err e out`
records the bytes that had already been written to the output before the
exit.  The decoder dictionary is a total function from code to the
materialized byte sequence (indices ≥ dict_size model entries not yet
created and are never read by the algorithm). -/

inductive DecErr where
  | headerRead
  | headerValue
  | firstCode
  | unexpectedEnd
  | invalidCode
  | prevOut
deriving DecidableEq

inductive DecOut where
  | ok (out : List Nat)
  | err (e : DecErr) (out : List Nat)
  | div
deriving DecidableEq

/-- Prepend bytes already written to the outcome of the rest of the run. -/
def decAppend (seq : List Nat) : DecOut → DecOut
  | DecOut.ok out => DecOut.ok (seq ++ out)
  | DecOut.err e out => DecOut.err e (seq ++ out)
  | DecOut.div => DecOut.div

/-- The add-new-entry block of the decoder loop: when space remains,
entry dict_size becomes sequence(prev) ++ [fb] (fb is the first byte of
the just-emitted sequence). -/
def decGrow (dict : Nat → List Nat) (dict_size prev fb : Nat) :
    (Nat → List Nat) × Nat :=
  if dict_size < MAX_DICT_SIZE then
    (Function.update dict dict_size (dict prev ++ [fb]), dict_size + 1)
  else
    (dict, dict_size)

/-- The body of the decoder main loop for one code `curr`: resolve the
sequence to emit (regular, KwKwK, or the invalid-code exit), then grow
the dictionary.  Returns (emitted sequence, (new dict, new dict_size)). -/
def decStep (dict : Nat → List Nat) (dict_size prev curr : Nat) :
    Except DecErr (List Nat × ((Nat → List Nat) × Nat)) :=
  if curr < dict_size then
    Except.ok (dict curr, decGrow dict dict_size prev ((dict curr).headD 0))
  else if curr = dict_size then
    if prev < dict_size then
      let seq := dict prev ++ [(dict prev).headD 0]
      Except.ok (seq, decGrow dict dict_size prev (seq.headD 0))
    else
      Except.error DecErr.prevOut
  else
    Except.error DecErr.invalidCode

/-- The decoder main loop.  Every iteration enters br_read_code with
fewer than 8 buffered bits and so consumes at least one source byte, so
the remaining input length bounds the iteration count; the caller passes
that bound plus one as fuel. -/
def decLoop : Nat → BitReader → (Nat → List Nat) → Nat → Nat → DecOut
  | 0, _, _, _, _ => DecOut.div
  | fuel + 1, br, dict, dict_size, prev =>
    match br_read_code br with
    | ReadRes.eof => DecOut.ok []
    | ReadRes.corrupt => DecOut.err DecErr.unexpectedEnd []
    | ReadRes.code curr br2 =>
      match decStep dict dict_size prev curr with
      | Except.error e => DecOut.err e []
      | Except.ok (seq, d2) =>
        decAppend seq (decLoop fuel br2 d2.1 d2.2 curr)

/-- The 256 seeded single-byte sequences of the decoder dictionary. -/
def initDecDict : Nat → List Nat := fun i =>
  if i < INIT_DICT_SIZE then [i] else []

/-- fread of one host int32 (little-endian host), with its signed value. -/
def readInt32 : List Nat → Option (Int × List Nat)
  | b0 :: b1 :: b2 :: b3 :: rest =>
    let v : Nat := b0 % 256 + 256 * (b1 % 256) + 65536 * (b2 % 256) +
      16777216 * (b3 % 256)
    some (if v < 2147483648 then (v : Int) else (v : Int) - 4294967296, rest)
  | _ => none

/-- lzw_decompress as a byte transform: read and validate the header,
seed the dictionary, read the first code (end of stream means an empty
payload), validate it, emit its sequence, then run the main loop. -/
def lzw_decompress (art : List Nat) : DecOut :=
  match readInt32 art with
  | none => DecOut.err DecErr.headerRead []
  | some (v, payload) =>
    if v = 256 then
      match br_read_code ⟨payload, 0, 0⟩ with
      | ReadRes.eof => DecOut.ok []
      | ReadRes.corrupt => DecOut.err DecErr.unexpectedEnd []
      | ReadRes.code p br2 =>
        if p < INIT_DICT_SIZE then
          decAppend (initDecDict p)
            (decLoop (br2.input.length + 1) br2 initDecDict INIT_DICT_SIZE p)
        else
          DecOut.err DecErr.firstCode []
    else
      DecOut.err DecErr.headerValue []

/-! ### Arithmetic facts about the bit writer -/

theorem bytesOf_length : ∀ k v, (bytesOf k v).length = k := by
  intro k
  induction k with
  | zero => intro v; rfl
  | succ n ih => intro v; simp [bytesOf, ih]

theorem bytesOf_append : ∀ q1 q2 v,
    bytesOf (q1 + q2) v = bytesOf q1 v ++ bytesOf q2 (v / 256 ^ q1) := by
  intro q1
  induction q1 with
  | zero => intro q2 v; simp [bytesOf]
  | succ n ih =>
    intro q2 v
    have h : n + 1 + q2 = (n + q2) + 1 := by omega
    rw [h]
    simp only [bytesOf, ih, List.cons_append]
    rw [Nat.div_div_eq_div_mul, pow_succ, mul_comm (256 ^ n) 256]


theorem bytesOf_add_mul : ∀ k a b, bytesOf k (a + b * 256 ^ k) = bytesOf k a := by
  intro k
  induction k with
  | zero => intro a b; rfl
  | succ n ih =>
    intro a b
    simp only [bytesOf]
    have hmod : (a + b * 256 ^ (n + 1)) % 256 = a % 256 := by
      rw [pow_succ, ← mul_assoc]
      exact Nat.add_mul_mod_self_right a (b * 256 ^ n) 256
    have hdiv : (a + b * 256 ^ (n + 1)) / 256 = a / 256 + b * 256 ^ n := by
      rw [pow_succ, ← mul_assoc]
      exact Nat.add_mul_div_right a (b * 256 ^ n) (by norm_num)
    rw [hmod, hdiv, ih]

/-- Disjoint bitwise or is addition: a value below 2 ^ k ored with a
multiple of 2 ^ k. -/
theorem lor_mul_pow (a b k : Nat) (h : a < 2 ^ k) :
    a ||| b * 2 ^ k = a + b * 2 ^ k := by
  apply Nat.eq_of_testBit_eq
  intro i
  rw [Nat.testBit_or]
  rw [mul_comm b (2 ^ k), add_comm a (2 ^ k * b)]
  rw [Nat.testBit_mul_pow_two_add b h i, Nat.testBit_mul_pow_two]
  by_cases hik : i < k
  · simp [hik, Nat.not_le_of_lt hik]
  · have hx : a.testBit i = false :=
      Nat.testBit_lt_two_pow
        (lt_of_lt_of_le h (Nat.pow_le_pow_right (by norm_num) (Nat.le_of_not_lt hik)))
    simp [hik, hx, Nat.le_of_not_lt hik]

theorem bw_drain_go_spec : ∀ q fuel r buffer, r < 8 → q ≤ fuel →
    bw_drain_go fuel buffer (8 * q + r) = (⟨buffer / 256 ^ q, r⟩, bytesOf q buffer) := by
  intro q
  induction q with
  | zero =>
    intro fuel r buffer hr _
    cases fuel with
    | zero => simp [bw_drain_go, bytesOf]
    | succ n =>
      simp only [bw_drain_go]
      rw [if_neg (by omega)]
      simp [bytesOf]
  | succ n ih =>
    intro fuel r buffer hr hq
    cases fuel with
    | zero => omega
    | succ f =>
      simp only [bw_drain_go]
      rw [if_pos (by omega)]
      have harg : 8 * (n + 1) + r - 8 = 8 * n + r := by omega
      rw [harg, ih f r (buffer / 256) hr (by omega)]
      simp only [bytesOf]
      rw [Nat.div_div_eq_div_mul, ← pow_succ']

theorem bw_drain_spec (buffer bc : Nat) :
    bw_drain buffer bc = (⟨buffer / 256 ^ (bc / 8), bc % 8⟩, bytesOf (bc / 8) buffer) := by
  have h := bw_drain_go_spec (bc / 8) bc (bc % 8) buffer (Nat.mod_lt _ (by norm_num))
    (Nat.div_le_self _ _)
  rw [bw_drain]
  rw [Nat.div_add_mod bc 8] at h
  exact h

theorem bw_write_spec (bw : BitWriter) (code : Nat)
    (hbuf : bw.buffer < 2 ^ bw.bit_count) (hbc : bw.bit_count < 8) :
    bw_write_code bw code =
      (⟨(bw.buffer + code % 2 ^ CODE_BITS * 2 ^ bw.bit_count) /
          256 ^ ((bw.bit_count + CODE_BITS) / 8),
        (bw.bit_count + CODE_BITS) % 8⟩,
       bytesOf ((bw.bit_count + CODE_BITS) / 8)
         (bw.buffer + code % 2 ^ CODE_BITS * 2 ^ bw.bit_count)) := by
  have h1 : code % 2 ^ CODE_BITS < 2 ^ CODE_BITS := Nat.mod_lt _ (by norm_num [CODE_BITS])
  have h2 : (2 : Nat) ^ bw.bit_count ≤ 2 ^ 7 := Nat.pow_le_pow_right (by norm_num) (by omega)
  have hsmall : code % 2 ^ CODE_BITS * 2 ^ bw.bit_count < 2 ^ 32 := by
    have h3 : code % 2 ^ CODE_BITS * 2 ^ bw.bit_count ≤ (2 ^ CODE_BITS - 1) * 2 ^ 7 :=
      Nat.mul_le_mul (by omega) h2
    have h4 : ((2:Nat) ^ CODE_BITS - 1) * 2 ^ 7 < 2 ^ 32 := by norm_num [CODE_BITS]
    omega
  rw [bw_write_code, Nat.mod_eq_of_lt hsmall,
    lor_mul_pow bw.buffer (code % 2 ^ CODE_BITS) bw.bit_count hbuf,
    bw_drain_spec]

theorem bw_run_spec : ∀ codes (bw : BitWriter),
    bw.buffer < 2 ^ bw.bit_count → bw.bit_count < 8 →
    bw_run bw codes =
      (⟨(bw.buffer + lsbValue codes * 2 ^ bw.bit_count) /
          256 ^ ((bw.bit_count + codes.length * CODE_BITS) / 8),
        (bw.bit_count + codes.length * CODE_BITS) % 8⟩,
       bytesOf ((bw.bit_count + codes.length * CODE_BITS) / 8)
         (bw.buffer + lsbValue codes * 2 ^ bw.bit_count)) := by
  intro codes
  induction codes with
  | nil =>
    intro bw hbuf hbc
    simp only [bw_run, lsbValue, List.length_nil, Nat.zero_mul, Nat.add_zero, Nat.mul_zero]
    rw [Nat.div_eq_of_lt (by omega : bw.bit_count < 8), Nat.mod_eq_of_lt hbc]
    simp [bytesOf, pow_zero]
  | cons c cs ih =>
    intro bw hbuf hbc
    have hCB : CODE_BITS = 14 := rfl
    have h1 : c % 2 ^ CODE_BITS < 2 ^ CODE_BITS := Nat.mod_lt _ (by norm_num [CODE_BITS])
    -- the bit total after the first write, split into bytes and residual
    have ht1 : bw.bit_count + CODE_BITS =
        8 * ((bw.bit_count + CODE_BITS) / 8) + (bw.bit_count + CODE_BITS) % 8 :=
      (Nat.div_add_mod _ 8).symm
    have hr1lt : (bw.bit_count + CODE_BITS) % 8 < 8 := Nat.mod_lt _ (by norm_num)
    -- value after the first write
    have hv1lt : bw.buffer + c % 2 ^ CODE_BITS * 2 ^ bw.bit_count <
        2 ^ (bw.bit_count + CODE_BITS) := by
      have hdist : ((2:Nat) ^ CODE_BITS - 1) * 2 ^ bw.bit_count =
          2 ^ CODE_BITS * 2 ^ bw.bit_count - 2 ^ bw.bit_count := by
        rw [Nat.sub_one_mul]
      have hBC : (2:Nat) ^ bw.bit_count ≤ 2 ^ CODE_BITS * 2 ^ bw.bit_count :=
        Nat.le_mul_of_pos_left _ (Nat.pos_pow_of_pos _ (by norm_num))
      have hm : c % 2 ^ CODE_BITS * 2 ^ bw.bit_count ≤
          (2 ^ CODE_BITS - 1) * 2 ^ bw.bit_count :=
        Nat.mul_le_mul_right _ (by omega)
      have hexp : (2:Nat) ^ (bw.bit_count + CODE_BITS) =
          2 ^ CODE_BITS * 2 ^ bw.bit_count := by
        rw [pow_add, mul_comm]
      omega
    -- 2 ^ (bit_count + CODE_BITS) as bytes * residual bits
    have hexp2 : (2:Nat) ^ (bw.bit_count + CODE_BITS) =
        256 ^ ((bw.bit_count + CODE_BITS) / 8) * 2 ^ ((bw.bit_count + CODE_BITS) % 8) := by
      have h256 : (256:Nat) = 2 ^ 8 := by norm_num
      rw [h256, ← pow_mul, ← pow_add]
      congr 1
    simp only [bw_run]
    rw [bw_write_spec bw c hbuf hbc]
    have hq1v : (bw.buffer + c % 2 ^ CODE_BITS * 2 ^ bw.bit_count) /
        256 ^ ((bw.bit_count + CODE_BITS) / 8) < 2 ^ ((bw.bit_count + CODE_BITS) % 8) := by
      rw [Nat.div_lt_iff_lt_mul (Nat.pos_pow_of_pos _ (by norm_num))]
      rw [mul_comm ((2:Nat) ^ ((bw.bit_count + CODE_BITS) % 8))
        (256 ^ ((bw.bit_count + CODE_BITS) / 8)), ← hexp2]
      exact hv1lt
    rw [ih ⟨(bw.buffer + c % 2 ^ CODE_BITS * 2 ^ bw.bit_count) /
        256 ^ ((bw.bit_count + CODE_BITS) / 8), (bw.bit_count + CODE_BITS) % 8⟩ hq1v hr1lt]
    -- name the pieces
    set B : Nat := bw.bit_count with hB
    set n2 : Nat := cs.length with hn2
    set q1 : Nat := (B + CODE_BITS) / 8 with hq1def
    set r1 : Nat := (B + CODE_BITS) % 8 with hr1def
    set v1 : Nat := bw.buffer + c % 2 ^ CODE_BITS * 2 ^ B with hv1def
    set L2 : Nat := lsbValue cs with hL2
    -- the full value decomposes as v1 plus a multiple of 256 ^ q1
    have hVdec : bw.buffer + lsbValue (c :: cs) * 2 ^ B = v1 + L2 * 2 ^ r1 * 256 ^ q1 := by
      simp only [lsbValue, ← hL2]
      have hstep : (c % 2 ^ CODE_BITS + 2 ^ CODE_BITS * L2) * 2 ^ B =
          c % 2 ^ CODE_BITS * 2 ^ B + L2 * (2 ^ CODE_BITS * 2 ^ B) := by ring
      rw [hstep]
      have hpow : (2:Nat) ^ CODE_BITS * 2 ^ B = 2 ^ r1 * 256 ^ q1 := by
        rw [mul_comm ((2:Nat) ^ CODE_BITS) (2 ^ B), ← pow_add, hexp2, mul_comm]
      rw [hpow, hv1def]
      ring
    -- totals
    have hT : B + (c :: cs).length * CODE_BITS = 8 * q1 + (r1 + n2 * CODE_BITS) := by
      simp only [List.length_cons, ← hn2]
      rw [hCB] at ht1 ⊢
      omega
    have hTdiv : (B + (c :: cs).length * CODE_BITS) / 8 = q1 + (r1 + n2 * CODE_BITS) / 8 := by
      rw [hT, Nat.mul_add_div (by norm_num)]
    have hTmod : (B + (c :: cs).length * CODE_BITS) % 8 = (r1 + n2 * CODE_BITS) % 8 := by
      rw [hT]
      omega
    -- divide the full value by the first write's bytes
    have hVdiv : (bw.buffer + lsbValue (c :: cs) * 2 ^ B) / 256 ^ q1 =
        v1 / 256 ^ q1 + L2 * 2 ^ r1 := by
      rw [hVdec]
      exact Nat.add_mul_div_right v1 (L2 * 2 ^ r1) (Nat.pos_pow_of_pos _ (by norm_num))
    -- assemble both components
    have hbytes : bytesOf ((B + (c :: cs).length * CODE_BITS) / 8)
        (bw.buffer + lsbValue (c :: cs) * 2 ^ B) =
        bytesOf q1 v1 ++ bytesOf ((r1 + n2 * CODE_BITS) / 8)
          (v1 / 256 ^ q1 + L2 * 2 ^ r1) := by
      rw [hTdiv, bytesOf_append, hVdiv]
      congr 1
      rw [hVdec, bytesOf_add_mul]
    have hbuffer : (v1 / 256 ^ q1 + L2 * 2 ^ r1) / 256 ^ ((r1 + n2 * CODE_BITS) / 8) =
        (bw.buffer + lsbValue (c :: cs) * 2 ^ B) /
          256 ^ ((B + (c :: cs).length * CODE_BITS) / 8) := by
      rw [hTdiv, pow_add, ← Nat.div_div_eq_div_mul, hVdiv]
    rw [hbytes, hbuffer, ← hTmod]

/-- Claim C5 — Bit packer contract: for every finite sequence of codes
each below 2^CODE_BITS, writing each code in order with bw_write_code and
then flushing produces exactly the LSB-first bit-packing of the codes
(each write appends CODE_BITS bits at the current bit offset, complete
low bytes are peeled off, the flush emits the zero-padded partial byte),
and the total output is ceil(n * CODE_BITS / 8) bytes. -/
theorem bit_packer_contract (codes : List Nat) (h : ∀ c ∈ codes, c < 2 ^ CODE_BITS) :
    pack codes = lsbPack codes ∧
    (pack codes).length = (codes.length * CODE_BITS + 7) / 8 := by
  have hrun := bw_run_spec codes ⟨0, 0⟩ (by norm_num) (by norm_num)
  have hpack : pack codes = bytesOf (codes.length * CODE_BITS / 8) (lsbValue codes) ++
      bw_flush ⟨lsbValue codes / 256 ^ (codes.length * CODE_BITS / 8),
        codes.length * CODE_BITS % 8⟩ := by
    rw [pack, hrun]
    simp [pow_zero]
  have hmain : pack codes = lsbPack codes := by
    rw [hpack, lsbPack]
    by_cases hz : codes.length * CODE_BITS % 8 = 0
    · have hceil : (codes.length * CODE_BITS + 7) / 8 = codes.length * CODE_BITS / 8 := by
        omega
      rw [hceil, bw_flush]
      simp [hz]
    · have hceil : (codes.length * CODE_BITS + 7) / 8 = codes.length * CODE_BITS / 8 + 1 := by
        omega
      rw [hceil, bw_flush]
      simp only [show 0 < codes.length * CODE_BITS % 8 by omega, if_pos]
      rw [bytesOf_append]
      simp [bytesOf]
  refine ⟨hmain, ?_⟩
  rw [hmain, lsbPack, bytesOf_length]

/-- Witness for bit_packer_contract at the concrete code list [97, 300]. -/
theorem bit_packer_contract_witness :
    (∀ c ∈ [97, 300], c < 2 ^ CODE_BITS) ∧
    (pack [97, 300] = lsbPack [97, 300] ∧
      (pack [97, 300]).length = ([97, 300].length * CODE_BITS + 7) / 8) :=
  ⟨by decide, bit_packer_contract [97, 300] (by decide)⟩

/-- Claim C9 — Empty input: compressing the empty byte sequence produces
exactly the 4-byte header (the flush of zero pending bits emits nothing),
and decompressing that artifact produces the empty byte sequence. -/
theorem empty_input_artifact :
    lzw_compress [] = some (int32LE INIT_DICT_SIZE) ∧
    int32LE INIT_DICT_SIZE = [0, 1, 0, 0] ∧
    bw_flush ⟨0, 0⟩ = [] ∧
    lzw_decompress [0, 1, 0, 0] = DecOut.ok [] := by
  refine ⟨?_, rfl, rfl, rfl⟩
  decide

/-- Claim C2 — the failing end-of-stream behavior of br_read_code: on an
exhausted source holding a residual of 2 buffered bits that are all zero
(exactly the zero padding bw_flush produces), br_read_code takes the
fatal corrupted-stream exit rather than signalling "no more codes"; only
an empty residual (bit_count = 0) is accepted as end of stream. -/
theorem br_read_code_zero_padding_rejected :
    br_read_code ⟨[], 0, 2⟩ = ReadRes.corrupt ∧
    br_read_code ⟨[], 0, 0⟩ = ReadRes.eof := by
  exact ⟨rfl, rfl⟩

/-- Claim C1 — the round trip fails on the single-byte input [97]: the
compressor emits one 14-bit code padded with two zero bits, and the
decompressor, after writing the correct byte 97, hits the all-zero 2-bit
residual and takes the fatal "Unexpected end of compressed data" exit
instead of terminating successfully. -/
theorem roundtrip_single_byte_fails :
    lzw_compress [97] = some [0, 1, 0, 0, 97, 0] ∧
    lzw_decompress [0, 1, 0, 0, 97, 0] = DecOut.err DecErr.unexpectedEnd [97] := by
  exact ⟨rfl, rfl⟩

/-! ### Decoder lemmas -/

/-- The first byte of a KwKwK-constructed sequence is the first byte of
sequence(prev), also when sequence(prev) is empty. -/
theorem kwkwk_headD (l : List Nat) : (l ++ [l.headD 0]).headD 0 = l.headD 0 := by
  cases l with
  | nil => rfl
  | cons a t => rfl

/-- Claim C3 — KwKwK reconstruction: in the decoder main loop, whenever
prev is a valid code (prev < dict_size) and the code read equals
dict_size, the loop emits exactly sequence(prev) followed by the first
byte of sequence(prev), and continues with the correspondingly grown
dictionary. -/
theorem kwkwk_reconstruction (fuel : Nat) (br : BitReader) (dict : Nat → List Nat)
    (dict_size prev : Nat) (br2 : BitReader)
    (hread : br_read_code br = ReadRes.code dict_size br2) (hprev : prev < dict_size) :
    decLoop (fuel + 1) br dict dict_size prev =
      decAppend (dict prev ++ [(dict prev).headD 0])
        (decLoop fuel br2
          (decGrow dict dict_size prev ((dict prev).headD 0)).1
          (decGrow dict dict_size prev ((dict prev).headD 0)).2 dict_size) := by
  simp only [decLoop, hread]
  rw [decStep, if_neg (by omega), if_pos rfl, if_pos hprev]
  simp only [kwkwk_headD]

/-- Witness for kwkwk_reconstruction: dict_size = 256 read from the two
payload bytes [0, 1], prev = 65 over the seeded dictionary. -/
theorem kwkwk_reconstruction_witness :
    br_read_code ⟨[0, 1], 0, 0⟩ = ReadRes.code 256 ⟨[], 0, 2⟩ ∧ 65 < 256 ∧
    decLoop 1 ⟨[0, 1], 0, 0⟩ initDecDict 256 65 =
      decAppend (initDecDict 65 ++ [(initDecDict 65).headD 0])
        (decLoop 0 ⟨[], 0, 2⟩
          (decGrow initDecDict 256 65 ((initDecDict 65).headD 0)).1
          (decGrow initDecDict 256 65 ((initDecDict 65).headD 0)).2 256) :=
  ⟨rfl, by decide,
    kwkwk_reconstruction 0 ⟨[0, 1], 0, 0⟩ initDecDict 256 65 ⟨[], 0, 2⟩ rfl (by decide)⟩

/-- Claim C6 — Corruption rejection: a code curr with curr > dict_size
makes decStep fail with the invalid-code error; the decoder loop then
terminates with that fatal error having emitted no bytes for that code;
and a first code outside [0, dict_size) (dict_size = 256 right after the
header) makes lzw_decompress fail with the first-code error and no
output at all. -/
theorem corruption_rejection :
    (∀ (dict : Nat → List Nat) (dict_size prev curr : Nat), dict_size < curr →
      decStep dict dict_size prev curr = Except.error DecErr.invalidCode) ∧
    (∀ (fuel : Nat) (br br2 : BitReader) (dict : Nat → List Nat)
        (dict_size prev curr : Nat),
      br_read_code br = ReadRes.code curr br2 → dict_size < curr →
      decLoop (fuel + 1) br dict dict_size prev = DecOut.err DecErr.invalidCode []) ∧
    (∀ (payload : List Nat) (p : Nat) (br2 : BitReader),
      br_read_code ⟨payload, 0, 0⟩ = ReadRes.code p br2 → INIT_DICT_SIZE ≤ p →
      lzw_decompress (0 :: 1 :: 0 :: 0 :: payload) = DecOut.err DecErr.firstCode []) := by
  refine ⟨?_, ?_, ?_⟩
  · intro dict dict_size prev curr hlt
    rw [decStep, if_neg (by omega), if_neg (by omega)]
  · intro fuel br br2 dict dict_size prev curr hread hlt
    simp only [decLoop, hread]
    rw [decStep, if_neg (by omega), if_neg (by omega)]
  · intro payload p br2 hread hp
    have hhdr : readInt32 (0 :: 1 :: 0 :: 0 :: payload) = some ((256 : Int), payload) := by
      simp [readInt32]
    have hnp : ¬ p < INIT_DICT_SIZE := not_lt.mpr hp
    simp [lzw_decompress, hhdr, hread, hnp]

/-- Witness for corruption_rejection: the two payload bytes [44, 1]
decode to the 14-bit code 300, which exceeds every dictionary size
reachable right after the header. -/
theorem corruption_rejection_witness :
    (256 < 300 ∧ decStep initDecDict 256 0 300 = Except.error DecErr.invalidCode) ∧
    (br_read_code ⟨[44, 1], 0, 0⟩ = ReadRes.code 300 ⟨[], 0, 2⟩ ∧
      decLoop 1 ⟨[44, 1], 0, 0⟩ initDecDict 256 0 = DecOut.err DecErr.invalidCode []) ∧
    (256 ≤ 300 ∧
      lzw_decompress [0, 1, 0, 0, 44, 1] = DecOut.err DecErr.firstCode []) :=
  ⟨⟨by decide, corruption_rejection.1 initDecDict 256 0 300 (by decide)⟩,
   ⟨rfl, corruption_rejection.2.1 0 ⟨[44, 1], 0, 0⟩ ⟨[], 0, 2⟩ initDecDict 256 0 300
      rfl (by decide)⟩,
   ⟨by decide, corruption_rejection.2.2 [44, 1] 300 ⟨[], 0, 2⟩ rfl (by decide)⟩⟩

/-- decStep only ever fails with the prev-out-of-bounds or invalid-code
errors. -/
theorem decStep_err (dict : Nat → List Nat) (dict_size prev curr : Nat) (e : DecErr)
    (h : decStep dict dict_size prev curr = Except.error e) :
    e = DecErr.prevOut ∨ e = DecErr.invalidCode := by
  rw [decStep] at h
  by_cases h1 : curr < dict_size
  · rw [if_pos h1] at h
    exact absurd h (by simp)
  · rw [if_neg h1] at h
    by_cases h2 : curr = dict_size
    · rw [if_pos h2] at h
      by_cases h3 : prev < dict_size
      · rw [if_pos h3] at h
        exact absurd h (by simp)
      · rw [if_neg h3] at h
        left
        exact (Except.error.injEq _ _).mp h.symm
    · rw [if_neg h2] at h
      right
      exact (Except.error.injEq _ _).mp h.symm

/-- The decoder main loop never produces a header error. -/
theorem decLoop_no_header : ∀ (fuel : Nat) (br : BitReader) (dict : Nat → List Nat)
    (dict_size prev : Nat) (out : List Nat),
    decLoop fuel br dict dict_size prev ≠ DecOut.err DecErr.headerValue out ∧
    decLoop fuel br dict dict_size prev ≠ DecOut.err DecErr.headerRead out := by
  intro fuel
  induction fuel with
  | zero => intro br dict dict_size prev out; simp [decLoop]
  | succ f ih =>
    intro br dict dict_size prev out
    simp only [decLoop]
    cases hr : br_read_code br with
    | eof => simp
    | corrupt => simp
    | code curr br2 =>
      cases hs : decStep dict dict_size prev curr with
      | error e =>
        simp only [hs]
        rcases decStep_err dict dict_size prev curr e hs with he | he <;> subst he <;> simp
      | ok p =>
        obtain ⟨seq, d2⟩ := p
        simp only [hs]
        cases hl : decLoop f br2 d2.1 d2.2 curr with
        | ok o => simp [decAppend, hl]
        | div => simp [decAppend, hl]
        | err e o =>
          have h2 := ih br2 d2.1 d2.2 curr o
          rw [hl] at h2
          have hne1 : e ≠ DecErr.headerValue := fun he => h2.1 (by rw [he])
          have hne2 : e ≠ DecErr.headerRead := fun he => h2.2 (by rw [he])
          simp [decAppend, hl, hne1, hne2]

/-- Claim C7 — Header contract: every artifact lzw_compress produces
starts with the int32 value INIT_DICT_SIZE = 256; lzw_decompress reads
that int32 and fails with the header-value rejection (writing no output)
exactly when the value differs from 256, and fails with the header-read
error when fewer than 4 bytes exist. -/
theorem header_contract :
    (∀ input out, lzw_compress input = some out →
      out.take 4 = int32LE INIT_DICT_SIZE ∧ int32LE INIT_DICT_SIZE = [0, 1, 0, 0]) ∧
    (∀ art (v : Int) rest, readInt32 art = some (v, rest) →
      (lzw_decompress art = DecOut.err DecErr.headerValue [] ↔ v ≠ 256)) ∧
    (∀ art, readInt32 art = none →
      lzw_decompress art = DecOut.err DecErr.headerRead []) := by
  refine ⟨?_, ?_, ?_⟩
  · intro input out hcomp
    refine ⟨?_, rfl⟩
    match input with
    | [] =>
      rw [lzw_compress] at hcomp
      have hout : out = int32LE INIT_DICT_SIZE ++ pack [] := by
        exact (Option.some.injEq _ _).mp hcomp.symm
      rw [hout]
      rfl
    | b :: rest =>
      rw [lzw_compress] at hcomp
      match hloop : encLoop ⟨initEncDict, INIT_DICT_SIZE, initTbl, b % 256⟩ rest with
      | none => rw [hloop] at hcomp; exact absurd hcomp (by simp)
      | some (s, codes) =>
        rw [hloop] at hcomp
        have hout : out = int32LE INIT_DICT_SIZE ++ pack (codes ++ [s.curr_code]) := by
          exact (Option.some.injEq _ _).mp hcomp.symm
        rw [hout]
        rfl
  · intro art v rest hread
    simp only [lzw_decompress, hread]
    constructor
    · intro hdec hv
      rw [if_pos hv] at hdec
      match hr : br_read_code ⟨rest, 0, 0⟩ with
      | ReadRes.eof => simp only [hr] at hdec; exact absurd hdec (by simp)
      | ReadRes.corrupt => simp only [hr] at hdec; exact absurd hdec (by simp)
      | ReadRes.code p br2 =>
        simp only [hr] at hdec
        by_cases hp : p < INIT_DICT_SIZE
        · rw [if_pos hp] at hdec
          have hne := decLoop_no_header (br2.input.length + 1) br2 initDecDict
            INIT_DICT_SIZE p
          match hl : decLoop (br2.input.length + 1) br2 initDecDict INIT_DICT_SIZE p with
          | DecOut.ok o => rw [hl] at hdec; exact absurd hdec (by simp [decAppend])
          | DecOut.div => rw [hl] at hdec; exact absurd hdec (by simp [decAppend])
          | DecOut.err e o =>
            rw [hl] at hdec
            simp only [decAppend] at hdec
            have he : e = DecErr.headerValue := ((DecOut.err.injEq _ _ _ _).mp hdec).1
            have := (hne o).1
            rw [hl, he] at this
            exact this rfl
        · rw [if_neg hp] at hdec
          exact absurd hdec (by simp)
    · intro hv
      rw [if_neg hv]
  · intro art hread
    rw [lzw_decompress, hread]

/-- Witness for header_contract at the artifacts produced by compressing
[] and at the all-zero 4-byte artifact (header value 0). -/
theorem header_contract_witness :
    (lzw_compress [] = some [0, 1, 0, 0] ∧
      ([0, 1, 0, 0] : List Nat).take 4 = int32LE INIT_DICT_SIZE) ∧
    (readInt32 [0, 0, 0, 0] = some ((0 : Int), []) ∧
      lzw_decompress [0, 0, 0, 0] = DecOut.err DecErr.headerValue []) ∧
    (readInt32 [7] = none ∧ lzw_decompress [7] = DecOut.err DecErr.headerRead []) :=
  ⟨⟨by decide, (header_contract.1 [] [0, 1, 0, 0] (by decide)).1⟩,
   ⟨rfl, (header_contract.2.1 [0, 0, 0, 0] 0 [] rfl).mpr (by decide)⟩,
   ⟨rfl, header_contract.2.2 [7] rfl⟩⟩

/-! ### Hash table lemmas -/

theorem ht_cap_eq : ht_cap = 32768 := rfl

/-- Masking with ht_cap - 1 is reduction modulo ht_cap (a power of two). -/
theorem land_ht_mask (x : Nat) : x &&& (ht_cap - 1) = x % ht_cap := by
  have h := Nat.and_pow_two_sub_one_eq_mod x 15
  rw [ht_cap_eq]
  norm_num at h
  exact h

theorem ht_cap_pos : 0 < ht_cap := by rw [ht_cap_eq]; norm_num

theorem ht_probe_start_lt (key : Nat) : ht_probe_start key < ht_cap := by
  rw [ht_probe_start, land_ht_mask]
  exact Nat.mod_lt _ ht_cap_pos

/-- A successful ht_insert_go updates exactly one empty slot (below
ht_cap when the probe started below ht_cap) with the key and code. -/
theorem ht_insert_go_spec : ∀ (fuel i : Nat) (tbl : Nat → Slot) (key : Nat)
    (code : Int) (tbl2 : Nat → Slot), i < ht_cap →
    ht_insert_go tbl key code i fuel = some tbl2 →
    ∃ m, m < ht_cap ∧ (tbl m).code = -1 ∧ tbl2 = Function.update tbl m ⟨key, code⟩ := by
  intro fuel
  induction fuel with
  | zero => intro i tbl key code tbl2 _ h; exact absurd h (by simp [ht_insert_go])
  | succ f ih =>
    intro i tbl key code tbl2 hi h
    rw [ht_insert_go] at h
    by_cases h1 : (tbl i).code = -1
    · rw [if_pos h1] at h
      exact ⟨i, hi, h1, ((Option.some.injEq _ _).mp h).symm⟩
    · rw [if_neg h1] at h
      exact ih ((i + 1) &&& (ht_cap - 1)) tbl key code tbl2
        (by rw [land_ht_mask]; exact Nat.mod_lt _ ht_cap_pos) h

/-- If some slot on the probe path within the fuel is empty, ht_find_go
succeeds. -/
theorem ht_find_go_reaches (tbl : Nat → Slot) (key : Nat) :
    ∀ (fuel i : Nat), i < ht_cap →
    (∃ j, j < fuel ∧ (tbl ((i + j) % ht_cap)).code = -1) →
    ∃ r, ht_find_go tbl key i fuel = some r := by
  intro fuel
  induction fuel with
  | zero => intro i _ h; obtain ⟨j, hj, _⟩ := h; omega
  | succ f ih =>
    intro i hi h
    rw [ht_find_go]
    by_cases h1 : (tbl i).code = -1
    · exact ⟨-1, by rw [if_pos h1]⟩
    · rw [if_neg h1]
      by_cases h2 : (tbl i).key = key
      · exact ⟨(tbl i).code, by rw [if_pos h2]⟩
      · rw [if_neg h2]
        obtain ⟨j, hj, hempty⟩ := h
        have hj0 : j ≠ 0 := by
          intro h0
          rw [h0, Nat.add_zero, Nat.mod_eq_of_lt hi] at hempty
          exact h1 hempty
        obtain ⟨j2, rfl⟩ : ∃ j2, j = j2 + 1 := ⟨j - 1, by omega⟩
        apply ih ((i + 1) &&& (ht_cap - 1))
          (by rw [land_ht_mask]; exact Nat.mod_lt _ ht_cap_pos)
        refine ⟨j2, by omega, ?_⟩
        rw [land_ht_mask, Nat.mod_add_mod]
        have harith : i + 1 + j2 = i + (j2 + 1) := by omega
        rw [harith]
        exact hempty

/-- Same for ht_insert_go. -/
theorem ht_insert_go_reaches (tbl : Nat → Slot) (key : Nat) (code : Int) :
    ∀ (fuel i : Nat), i < ht_cap →
    (∃ j, j < fuel ∧ (tbl ((i + j) % ht_cap)).code = -1) →
    ∃ tbl2, ht_insert_go tbl key code i fuel = some tbl2 := by
  intro fuel
  induction fuel with
  | zero => intro i _ h; obtain ⟨j, hj, _⟩ := h; omega
  | succ f ih =>
    intro i hi h
    rw [ht_insert_go]
    by_cases h1 : (tbl i).code = -1
    · exact ⟨_, by rw [if_pos h1]⟩
    · rw [if_neg h1]
      obtain ⟨j, hj, hempty⟩ := h
      have hj0 : j ≠ 0 := by
        intro h0
        rw [h0, Nat.add_zero, Nat.mod_eq_of_lt hi] at hempty
        exact h1 hempty
      obtain ⟨j2, rfl⟩ : ∃ j2, j = j2 + 1 := ⟨j - 1, by omega⟩
      apply ih ((i + 1) &&& (ht_cap - 1))
        (by rw [land_ht_mask]; exact Nat.mod_lt _ ht_cap_pos)
      refine ⟨j2, by omega, ?_⟩
      rw [land_ht_mask, Nat.mod_add_mod]
      have harith : i + 1 + j2 = i + (j2 + 1) := by omega
      rw [harith]
      exact hempty

/-- Every slot index below ht_cap lies on every probe path within ht_cap
steps (the probe sequence is a full cycle). -/
theorem probe_covers (i m : Nat) (hi : i < ht_cap) (hm : m < ht_cap) :
    ∃ j, j < ht_cap ∧ (i + j) % ht_cap = m := by
  rw [ht_cap_eq] at hi hm ⊢
  exact ⟨(m + 32768 - i) % 32768, by omega, by omega⟩

/-- A non-(-1) result of ht_find_go is the code stored in some slot below
ht_cap. -/
theorem ht_find_go_some : ∀ (fuel i : Nat) (tbl : Nat → Slot) (key : Nat) (c : Int),
    i < ht_cap → ht_find_go tbl key i fuel = some c →
    c = -1 ∨ ∃ m, m < ht_cap ∧ (tbl m).code = c := by
  intro fuel
  induction fuel with
  | zero => intro i tbl key c _ h; exact absurd h (by simp [ht_find_go])
  | succ f ih =>
    intro i tbl key c hi h
    rw [ht_find_go] at h
    by_cases h1 : (tbl i).code = -1
    · rw [if_pos h1] at h
      left
      exact ((Option.some.injEq _ _).mp h).symm
    · rw [if_neg h1] at h
      by_cases h2 : (tbl i).key = key
      · rw [if_pos h2] at h
        right
        exact ⟨i, hi, (Option.some.injEq _ _).mp h⟩
      · rw [if_neg h2] at h
        exact ih ((i + 1) &&& (ht_cap - 1)) tbl key c
          (by rw [land_ht_mask]; exact Nat.mod_lt _ ht_cap_pos) h

/-- After inserting a key that the same probe reported missing, the same
probe finds exactly the inserted code. -/
theorem ht_find_after_insert : ∀ (fuel i : Nat) (tbl tbl2 : Nat → Slot)
    (key : Nat) (code : Int), i < ht_cap →
    ht_find_go tbl key i fuel = some (-1) →
    ht_insert_go tbl key code i fuel = some tbl2 →
    code ≠ -1 →
    ht_find_go tbl2 key i fuel = some code := by
  intro fuel
  induction fuel with
  | zero => intro i tbl tbl2 key code _ hf _ _; exact absurd hf (by simp [ht_find_go])
  | succ f ih =>
    intro i tbl tbl2 key code hi hf hins hcode
    rw [ht_find_go] at hf
    rw [ht_insert_go] at hins
    by_cases h1 : (tbl i).code = -1
    · rw [if_pos h1] at hins
      have htbl2 : tbl2 = Function.update tbl i ⟨key, code⟩ :=
        ((Option.some.injEq _ _).mp hins).symm
      rw [ht_find_go, htbl2]
      rw [Function.update_same]
      rw [if_neg hcode, if_pos rfl]
    · rw [if_neg h1] at hf hins
      by_cases h2 : (tbl i).key = key
      · rw [if_pos h2] at hf
        exact absurd ((Option.some.injEq _ _).mp hf) h1
      · rw [if_neg h2] at hf
        have hi2 : (i + 1) &&& (ht_cap - 1) < ht_cap := by
          rw [land_ht_mask]; exact Nat.mod_lt _ ht_cap_pos
        obtain ⟨m, hm, hmempty, htbl2⟩ :=
          ht_insert_go_spec f ((i + 1) &&& (ht_cap - 1)) tbl key code tbl2 hi2 hins
        have hmi : m ≠ i := fun he => h1 (he ▸ hmempty)
        have htbl2i : tbl2 i = tbl i := by
          rw [htbl2, Function.update_noteq (Ne.symm hmi)]
        rw [ht_find_go, htbl2i, if_neg h1, if_neg h2]
        exact ih ((i + 1) &&& (ht_cap - 1)) tbl tbl2 key code hi2 hf hins hcode
/-! ### Occupancy of the hash table, and the encoder loop invariant -/

/-- Number of non-empty slots among the ht_cap probed indices. -/
def occupied (tbl : Nat → Slot) : Nat :=
  ((Finset.range ht_cap).filter (fun m => (tbl m).code ≠ -1)).card

theorem occupied_initTbl : occupied initTbl = 0 := by
  rw [occupied]
  rw [Finset.filter_false_of_mem]
  · exact Finset.card_empty
  · intro m _
    simp [initTbl]

/-- If not every slot is occupied, some probed slot is empty. -/
theorem exists_empty_slot (tbl : Nat → Slot) (h : occupied tbl < ht_cap) :
    ∃ m, m < ht_cap ∧ (tbl m).code = -1 := by
  by_contra hc
  push_neg at hc
  have hall : (Finset.range ht_cap).filter (fun m => (tbl m).code ≠ -1) =
      Finset.range ht_cap := by
    apply Finset.filter_true_of_mem
    intro m hm
    exact hc m (Finset.mem_range.mp hm)
  rw [occupied, hall, Finset.card_range] at h
  exact lt_irrefl _ h

/-- Updating an empty slot below ht_cap with a non-empty one increases
the occupancy by exactly one. -/
theorem occupied_update (tbl : Nat → Slot) (m : Nat) (slot : Slot)
    (hm : m < ht_cap) (hempty : (tbl m).code = -1) (hcode : slot.code ≠ -1) :
    occupied (Function.update tbl m slot) = occupied tbl + 1 := by
  rw [occupied, occupied]
  have hcongr : (Finset.range ht_cap).filter
      (fun x => (Function.update tbl m slot x).code ≠ -1) =
      (Finset.range ht_cap).filter (fun x => x = m ∨ (tbl x).code ≠ -1) := by
    apply Finset.filter_congr
    intro x _
    by_cases hxm : x = m
    · subst hxm
      simp [Function.update_same, hcode]
    · simp [Function.update_noteq hxm, hxm]
  rw [hcongr, Finset.filter_or]
  have heq : (Finset.range ht_cap).filter (fun x => x = m) = {m} := by
    rw [Finset.filter_eq']
    rw [if_pos (Finset.mem_range.mpr hm)]
  rw [heq]
  have hnot : m ∉ (Finset.range ht_cap).filter (fun x => (tbl x).code ≠ -1) := by
    simp [hempty]
  rw [← Finset.insert_eq, Finset.card_insert_of_not_mem hnot]

/-- The invariant of the lzw_compress main loop: dict_size stays within
[INIT_DICT_SIZE, MAX_DICT_SIZE], the pending code is a live entry, every
code stored in the hash index is a live entry, and the hash index holds
exactly the dict_size - INIT_DICT_SIZE created entries. -/
def EncInv (s : EncState) : Prop :=
  INIT_DICT_SIZE ≤ s.dict_size ∧ s.dict_size ≤ MAX_DICT_SIZE ∧
  s.curr_code < s.dict_size ∧
  (∀ m, m < ht_cap → (s.tbl m).code ≠ -1 →
    0 ≤ (s.tbl m).code ∧ (s.tbl m).code < (s.dict_size : Int)) ∧
  occupied s.tbl + INIT_DICT_SIZE = s.dict_size

theorem encInv_init (b : Nat) :
    EncInv ⟨initEncDict, INIT_DICT_SIZE, initTbl, b % 256⟩ := by
  refine ⟨le_refl _, by norm_num [INIT_DICT_SIZE, MAX_DICT_SIZE], ?_, ?_, ?_⟩
  · exact Nat.mod_lt _ (by norm_num [INIT_DICT_SIZE])
  · intro m _ hcode
    exact absurd rfl hcode
  · show occupied initTbl + INIT_DICT_SIZE = INIT_DICT_SIZE
    rw [occupied_initTbl]
    omega

/-- The hash table of an invariant-satisfying state always has an empty
slot: at most MAX_DICT_SIZE - INIT_DICT_SIZE of the ht_cap slots are
occupied. -/
theorem encInv_empty_slot (s : EncState) (hinv : EncInv s) :
    ∃ m, m < ht_cap ∧ (s.tbl m).code = -1 := by
  apply exists_empty_slot
  have h1 : INIT_DICT_SIZE = 256 := rfl
  have h2 : MAX_DICT_SIZE = 16384 := rfl
  have h3 := ht_cap_eq
  obtain ⟨_, hmax, _, _, hocc⟩ := hinv
  omega

/-- Every encoder step from an invariant state succeeds, preserves the
invariant, only emits codes below the current dict_size, and never
shrinks the dictionary. -/
theorem encStep_inv (s : EncState) (k : Nat) (hk : k < 256) (hinv : EncInv s) :
    ∃ s2 out, encStep s k = some (s2, out) ∧ EncInv s2 ∧
      (∀ c ∈ out, c < s.dict_size) ∧ s.dict_size ≤ s2.dict_size := by
  have hIN : INIT_DICT_SIZE = 256 := rfl
  have hMX : MAX_DICT_SIZE = 16384 := rfl
  obtain ⟨hinit, hmax, hcurr, hslots, hocc⟩ := hinv
  obtain ⟨m, hm, hempty⟩ := encInv_empty_slot s ⟨hinit, hmax, hcurr, hslots, hocc⟩
  obtain ⟨j, hj, hjeq⟩ := probe_covers (ht_probe_start (mk_key s.curr_code k)) m
    (ht_probe_start_lt _) hm
  have hpath : ∃ j2, j2 < ht_cap ∧
      (s.tbl ((ht_probe_start (mk_key s.curr_code k) + j2) % ht_cap)).code = -1 :=
    ⟨j, hj, by rw [hjeq]; exact hempty⟩
  obtain ⟨r, hr⟩ := ht_find_go_reaches s.tbl (mk_key s.curr_code k) ht_cap
    (ht_probe_start (mk_key s.curr_code k)) (ht_probe_start_lt _) hpath
  by_cases hneg : r = -1
  · -- miss: emit, maybe grow
    subst hneg
    by_cases hspace : s.dict_size < MAX_DICT_SIZE
    · obtain ⟨tbl2, htbl2⟩ := ht_insert_go_reaches s.tbl (mk_key s.curr_code k)
        (Int.ofNat s.dict_size) ht_cap (ht_probe_start (mk_key s.curr_code k))
        (ht_probe_start_lt _) hpath
      obtain ⟨m2, hm2, hm2empty, htbl2eq⟩ := ht_insert_go_spec ht_cap
        (ht_probe_start (mk_key s.curr_code k)) s.tbl (mk_key s.curr_code k)
        (Int.ofNat s.dict_size) tbl2 (ht_probe_start_lt _) htbl2
      refine ⟨{ dict := Function.update s.dict s.dict_size
                  ⟨Int.ofNat s.curr_code, k, (s.dict s.curr_code).len + 1⟩,
                dict_size := s.dict_size + 1, tbl := tbl2, curr_code := k },
              [s.curr_code], ?_, ⟨?_, ?_, ?_, ?_, ?_⟩, ?_, ?_⟩
      · simp only [encStep, ht_find, hr]
        rw [if_neg (by simp), if_pos hspace]
        simp only [ht_insert, htbl2]
      · show INIT_DICT_SIZE ≤ s.dict_size + 1
        omega
      · show s.dict_size + 1 ≤ MAX_DICT_SIZE
        omega
      · show k < s.dict_size + 1
        omega
      · intro m3 hm3 hcode3
        have hc : (Function.update s.tbl m2
            ⟨mk_key s.curr_code k, Int.ofNat s.dict_size⟩ m3).code ≠ -1 := by
          rw [← htbl2eq]
          exact hcode3
        show 0 ≤ (tbl2 m3).code ∧ (tbl2 m3).code < ((s.dict_size + 1 : Nat) : Int)
        rw [htbl2eq]
        by_cases hm3m2 : m3 = m2
        · subst hm3m2
          rw [Function.update_same]
          show (0 : Int) ≤ (s.dict_size : Int) ∧
            (s.dict_size : Int) < ((s.dict_size + 1 : Nat) : Int)
          omega
        · rw [Function.update_noteq hm3m2]
          rw [Function.update_noteq hm3m2] at hc
          have hold := hslots m3 hm3 hc
          omega
      · show occupied tbl2 + INIT_DICT_SIZE = s.dict_size + 1
        rw [htbl2eq, occupied_update s.tbl m2 _ hm2 hm2empty (by simp)]
        omega
      · intro c hc
        rw [List.mem_singleton] at hc
        subst hc
        exact hcurr
      · show s.dict_size ≤ s.dict_size + 1
        omega
    · refine ⟨{ s with curr_code := k }, [s.curr_code], ?_, ⟨hinit, hmax, ?_, hslots, hocc⟩,
        ?_, ?_⟩
      · simp only [encStep, ht_find, hr]
        rw [if_neg (by simp), if_neg hspace]
      · show k < s.dict_size
        omega
      · intro c hc
        rw [List.mem_singleton] at hc
        subst hc
        exact hcurr
      · exact le_refl _
  · -- hit: only curr_code changes
    have hbound : 0 ≤ r ∧ r < (s.dict_size : Int) := by
      rcases ht_find_go_some ht_cap (ht_probe_start (mk_key s.curr_code k)) s.tbl
        (mk_key s.curr_code k) r (ht_probe_start_lt _) hr with h | ⟨m2, hm2, hcode2⟩
      · exact absurd h hneg
      · exact hcode2 ▸ hslots m2 hm2 (by rw [hcode2]; exact hneg)
    refine ⟨{ s with curr_code := r.toNat }, [], ?_, ⟨hinit, hmax, ?_, hslots, hocc⟩, ?_, ?_⟩
    · simp only [encStep, ht_find, hr]
      rw [if_pos hneg]
    · show r.toNat < s.dict_size
      omega
    · intro c hc
      exact absurd hc (List.not_mem_nil c)
    · exact le_refl _

/-- The whole encoder loop from an invariant state succeeds, preserves
the invariant, and only emits codes below MAX_DICT_SIZE. -/
theorem encLoop_inv : ∀ (input : List Nat) (s : EncState), EncInv s →
    ∃ s2 codes, encLoop s input = some (s2, codes) ∧ EncInv s2 ∧
      (∀ c ∈ codes, c < MAX_DICT_SIZE) ∧ s.dict_size ≤ s2.dict_size := by
  intro input
  induction input with
  | nil =>
    intro s hinv
    exact ⟨s, [], rfl, hinv, fun c hc => absurd hc (List.not_mem_nil c), le_refl _⟩
  | cons b rest ih =>
    intro s hinv
    obtain ⟨s2, out1, hstep, hinv2, hout1, hle1⟩ :=
      encStep_inv s (b % 256) (Nat.mod_lt _ (by norm_num)) hinv
    obtain ⟨s3, out2, hloop, hinv3, hout2, hle2⟩ := ih s2 hinv2
    refine ⟨s3, out1 ++ out2, ?_, hinv3, ?_, le_trans hle1 hle2⟩
    · simp only [encLoop, hstep, hloop]
    · intro c hc
      rcases List.mem_append.mp hc with h | h
      · exact lt_of_lt_of_le (hout1 c h) (le_trans hinv.2.1 (le_refl _))
      · exact hout2 c h

/-- Claim C10 — Hash probe termination: the table ht_init sizes for
lzw_compress has 2 * MAX_DICT_SIZE slots (a power of two), and every
compression run completes — in particular every ht_find and ht_insert
probe loop reached an empty or matching slot within its fuel, since a
diverging probe would propagate None to the result. -/
theorem hash_probe_termination :
    2 * MAX_DICT_SIZE ≤ ht_cap ∧ ht_cap = 2 ^ 15 ∧
    ∀ input : List Nat, ∃ out, lzw_compress input = some out := by
  refine ⟨by rw [ht_cap_eq]; norm_num [MAX_DICT_SIZE], by rw [ht_cap_eq]; norm_num, ?_⟩
  intro input
  match input with
  | [] => exact ⟨_, rfl⟩
  | b :: rest =>
    obtain ⟨s2, codes, hloop, _, _, _⟩ :=
      encLoop_inv rest ⟨initEncDict, INIT_DICT_SIZE, initTbl, b % 256⟩ (encInv_init b)
    exact ⟨_, by rw [lzw_compress, hloop]⟩

/-- Claim C8 — Dictionary cap: every encoder run keeps dict_size at most
MAX_DICT_SIZE and every emitted code (the looped ones and the final
pending one) is below MAX_DICT_SIZE; an encoder step taken at
dict_size = MAX_DICT_SIZE creates no entry (dictionary, hash index and
dict_size are unchanged); and a decoder step never pushes dict_size past
MAX_DICT_SIZE and adds nothing once dict_size = MAX_DICT_SIZE. -/
theorem dictionary_cap :
    (∀ (b : Nat) (rest : List Nat) (s : EncState) (codes : List Nat),
      encLoop ⟨initEncDict, INIT_DICT_SIZE, initTbl, b % 256⟩ rest = some (s, codes) →
      s.dict_size ≤ MAX_DICT_SIZE ∧ ∀ c ∈ codes ++ [s.curr_code], c < MAX_DICT_SIZE) ∧
    (∀ (s : EncState) (k : Nat), (∃ m, m < ht_cap ∧ (s.tbl m).code = -1) →
      s.dict_size = MAX_DICT_SIZE →
      ∃ s2 out, encStep s k = some (s2, out) ∧ s2.dict = s.dict ∧ s2.tbl = s.tbl ∧
        s2.dict_size = MAX_DICT_SIZE) ∧
    (∀ (dict : Nat → List Nat) (dict_size prev curr : Nat) (seq : List Nat)
        (d2 : (Nat → List Nat) × Nat),
      decStep dict dict_size prev curr = Except.ok (seq, d2) →
      (dict_size ≤ MAX_DICT_SIZE → d2.2 ≤ MAX_DICT_SIZE) ∧
      (dict_size = MAX_DICT_SIZE → d2 = (dict, dict_size))) := by
  refine ⟨?_, ?_, ?_⟩
  · intro b rest s codes hloop
    obtain ⟨s2, codes2, hloop2, hinv2, hcodes2, _⟩ :=
      encLoop_inv rest ⟨initEncDict, INIT_DICT_SIZE, initTbl, b % 256⟩ (encInv_init b)
    rw [hloop] at hloop2
    obtain ⟨heq1, heq2⟩ := Prod.mk.injEq _ _ _ _ ▸ (Option.some.injEq _ _).mp hloop2
    subst heq1
    subst heq2
    refine ⟨hinv2.2.1, ?_⟩
    intro c hc
    rcases List.mem_append.mp hc with h | h
    · exact hcodes2 c h
    · rw [List.mem_singleton] at h
      subst h
      exact lt_of_lt_of_le hinv2.2.2.1 hinv2.2.1
  · intro s k hempty hfull
    obtain ⟨m, hm, hmempty⟩ := hempty
    obtain ⟨j, hj, hjeq⟩ := probe_covers (ht_probe_start (mk_key s.curr_code k)) m
      (ht_probe_start_lt _) hm
    have hpath : ∃ j2, j2 < ht_cap ∧
        (s.tbl ((ht_probe_start (mk_key s.curr_code k) + j2) % ht_cap)).code = -1 :=
      ⟨j, hj, by rw [hjeq]; exact hmempty⟩
    obtain ⟨r, hr⟩ := ht_find_go_reaches s.tbl (mk_key s.curr_code k) ht_cap
      (ht_probe_start (mk_key s.curr_code k)) (ht_probe_start_lt _) hpath
    by_cases hneg : r = -1
    · subst hneg
      refine ⟨{ s with curr_code := k }, [s.curr_code], ?_, rfl, rfl, hfull⟩
      simp only [encStep, ht_find, hr]
      rw [if_neg (by simp), if_neg (by omega)]
    · refine ⟨{ s with curr_code := r.toNat }, [], ?_, rfl, rfl, hfull⟩
      simp only [encStep, ht_find, hr]
      rw [if_pos hneg]
  · intro dict dict_size prev curr seq d2 hstep
    rw [decStep] at hstep
    by_cases h1 : curr < dict_size
    · rw [if_pos h1] at hstep
      have hd2 : d2 = decGrow dict dict_size prev ((dict curr).headD 0) :=
        (Prod.mk.injEq _ _ _ _ ▸ (Except.ok.injEq _ _).mp hstep).2.symm
      rw [hd2, decGrow]
      by_cases h2 : dict_size < MAX_DICT_SIZE
      · rw [if_pos h2]
        exact ⟨fun _ => by omega, fun hfull => absurd hfull (by omega)⟩
      · rw [if_neg h2]
        exact ⟨fun hle => hle, fun _ => rfl⟩
    · rw [if_neg h1] at hstep
      by_cases h2 : curr = dict_size
      · rw [if_pos h2] at hstep
        by_cases h3 : prev < dict_size
        · rw [if_pos h3] at hstep
          have hd2 : d2 = decGrow dict dict_size prev
              ((dict prev ++ [(dict prev).headD 0]).headD 0) :=
            (Prod.mk.injEq _ _ _ _ ▸ (Except.ok.injEq _ _).mp hstep).2.symm
          rw [hd2, decGrow]
          by_cases h4 : dict_size < MAX_DICT_SIZE
          · rw [if_pos h4]
            exact ⟨fun _ => by omega, fun hfull => absurd hfull (by omega)⟩
          · rw [if_neg h4]
            exact ⟨fun hle => hle, fun _ => rfl⟩
        · rw [if_neg h3] at hstep
          exact absurd hstep (by simp)
      · rw [if_neg h2] at hstep
        exact absurd hstep (by simp)

/-- Witness for dictionary_cap: the one-byte run (encLoop over no input
bytes), an at-capacity encoder state over the empty table, and a decoder
step from the seeded dictionary. -/
theorem dictionary_cap_witness :
    (encLoop ⟨initEncDict, INIT_DICT_SIZE, initTbl, 65 % 256⟩ [] =
        some (⟨initEncDict, INIT_DICT_SIZE, initTbl, 65 % 256⟩, []) ∧
      INIT_DICT_SIZE ≤ MAX_DICT_SIZE ∧
      ∀ c ∈ ([] : List Nat) ++ [(65 : Nat) % 256], c < MAX_DICT_SIZE) ∧
    ((∃ m, m < ht_cap ∧ (initTbl m).code = -1) ∧
      (∃ s2 out, encStep ⟨initEncDict, MAX_DICT_SIZE, initTbl, 0⟩ 0 = some (s2, out) ∧
        s2.dict = initEncDict ∧ s2.tbl = initTbl ∧ s2.dict_size = MAX_DICT_SIZE)) ∧
    (decStep initDecDict 256 0 0 =
        Except.ok (initDecDict 0, decGrow initDecDict 256 0 ((initDecDict 0).headD 0)) ∧
      (256 ≤ MAX_DICT_SIZE →
        (decGrow initDecDict 256 0 ((initDecDict 0).headD 0)).2 ≤ MAX_DICT_SIZE)) := by
  refine ⟨⟨rfl, ?_, ?_⟩, ⟨⟨0, ?_, rfl⟩, ?_⟩, ⟨?_, ?_⟩⟩
  · exact ((dictionary_cap.1 65 [] ⟨initEncDict, INIT_DICT_SIZE, initTbl, 65 % 256⟩ []
      rfl).1 : INIT_DICT_SIZE ≤ MAX_DICT_SIZE)
  · exact (dictionary_cap.1 65 [] ⟨initEncDict, INIT_DICT_SIZE, initTbl, 65 % 256⟩ []
      rfl).2
  · rw [ht_cap_eq]; norm_num
  · exact dictionary_cap.2.1 ⟨initEncDict, MAX_DICT_SIZE, initTbl, 0⟩ 0
      ⟨0, by rw [ht_cap_eq]; norm_num, rfl⟩ rfl
  · rfl
  · exact (dictionary_cap.2.2 initDecDict 256 0 0 (initDecDict 0)
      (decGrow initDecDict 256 0 ((initDecDict 0).headD 0)) rfl).1

/-- Claim C4 — Encoder step rule: from any state whose hash table still
has an empty slot, a step on byte k behaves as specified: on a hash hit
it only sets curr_code to the found code; on a miss it emits curr_code,
and, exactly when dict_size < MAX_DICT_SIZE, creates the entry
(prefix = curr_code, append = k) at index dict_size, inserts it into the
hash index (so that looking the pair up now yields code dict_size) and
increments dict_size, finally restarting from k; and at end of input
lzw_compress emits the pending curr_code and flushes via pack. -/
theorem encoder_step_rule (s : EncState) (k : Nat) (hk : k < 256)
    (hempty : ∃ m, m < ht_cap ∧ (s.tbl m).code = -1) :
    (∀ c : Int, ht_find s.tbl (mk_key s.curr_code k) = some c → c ≠ -1 →
        encStep s k = some ({ s with curr_code := c.toNat }, [])) ∧
    (ht_find s.tbl (mk_key s.curr_code k) = some (-1) →
      (s.dict_size < MAX_DICT_SIZE →
        ∃ tbl2, ht_insert s.tbl (mk_key s.curr_code k) (Int.ofNat s.dict_size) =
            some tbl2 ∧
          encStep s k = some
            ({ dict := Function.update s.dict s.dict_size
                 ⟨Int.ofNat s.curr_code, k, (s.dict s.curr_code).len + 1⟩,
               dict_size := s.dict_size + 1, tbl := tbl2, curr_code := k },
             [s.curr_code]) ∧
          ht_find tbl2 (mk_key s.curr_code k) = some (Int.ofNat s.dict_size)) ∧
      (MAX_DICT_SIZE ≤ s.dict_size →
        encStep s k = some ({ s with curr_code := k }, [s.curr_code]))) ∧
    (∀ (b : Nat) (rest : List Nat) (s2 : EncState) (codes : List Nat),
      encLoop ⟨initEncDict, INIT_DICT_SIZE, initTbl, b % 256⟩ rest = some (s2, codes) →
      lzw_compress (b :: rest) =
        some (int32LE INIT_DICT_SIZE ++ pack (codes ++ [s2.curr_code]))) := by
  refine ⟨?_, ?_, ?_⟩
  · intro c hfind hc
    simp only [encStep, hfind]
    rw [if_pos hc]
  · intro hfind
    constructor
    · intro hspace
      obtain ⟨m, hm, hmempty⟩ := hempty
      obtain ⟨j, hj, hjeq⟩ := probe_covers (ht_probe_start (mk_key s.curr_code k)) m
        (ht_probe_start_lt _) hm
      have hpath : ∃ j2, j2 < ht_cap ∧
          (s.tbl ((ht_probe_start (mk_key s.curr_code k) + j2) % ht_cap)).code = -1 :=
        ⟨j, hj, by rw [hjeq]; exact hmempty⟩
      obtain ⟨tbl2, htbl2⟩ := ht_insert_go_reaches s.tbl (mk_key s.curr_code k)
        (Int.ofNat s.dict_size) ht_cap (ht_probe_start (mk_key s.curr_code k))
        (ht_probe_start_lt _) hpath
      rw [ht_find] at hfind
      refine ⟨tbl2, ?_, ?_, ?_⟩
      · rw [ht_insert]
        exact htbl2
      · simp only [encStep, ht_find, hfind]
        rw [if_neg (by simp), if_pos hspace]
        simp only [ht_insert, htbl2]
      · rw [ht_find]
        exact ht_find_after_insert ht_cap (ht_probe_start (mk_key s.curr_code k))
          s.tbl tbl2 (mk_key s.curr_code k) (Int.ofNat s.dict_size)
          (ht_probe_start_lt _) hfind htbl2 (fun h => Int.noConfusion h)
    · intro hfull
      simp only [encStep, hfind]
      rw [if_neg (by simp), if_neg (by omega)]
  · intro b rest s2 codes hloop
    rw [lzw_compress, hloop]

/-- Witness for encoder_step_rule: the very first step of compressing
"AB", a miss of (65, 66) in the empty table. -/
theorem encoder_step_rule_witness :
    ht_find initTbl (mk_key 65 66) = some (-1) ∧
    (∃ tbl2, ht_insert initTbl (mk_key 65 66) (Int.ofNat INIT_DICT_SIZE) = some tbl2 ∧
      encStep ⟨initEncDict, INIT_DICT_SIZE, initTbl, 65⟩ 66 = some
        ({ dict := Function.update initEncDict INIT_DICT_SIZE
             ⟨Int.ofNat 65, 66, (initEncDict 65).len + 1⟩,
           dict_size := INIT_DICT_SIZE + 1, tbl := tbl2, curr_code := 66 }, [65]) ∧
      ht_find tbl2 (mk_key 65 66) = some (Int.ofNat INIT_DICT_SIZE)) :=
  ⟨by decide,
    ((encoder_step_rule ⟨initEncDict, INIT_DICT_SIZE, initTbl, 65⟩ 66 (by decide)
        ⟨0, by rw [ht_cap_eq]; norm_num, rfl⟩).2.1 (by decide)).1 (by decide)⟩
